import Mathlib

/-!
Verification of the 8-bit accumulator processor emulator
(comp26020 lab 2, attempt 2: emulator.cpp, instructions.cpp, common.h).

The embedding follows the C++ source directly.  C++ `int` values (the
types `addr_t` and `data_t`) are modelled as `Int`; the 8-bit masking
operation `x & ARCH_BITMASK` of the source is modelled as `x % 256`,
which agrees with the two's-complement bitwise AND for every `Int`
(Lean's `%` on `Int` is the Euclidean remainder, non-negative for a
positive modulus, exactly like `& 0xFF` on a two's-complement machine
integer).  `uint8_t` memory cells are modelled as `Int` values kept in
`[0,255]`; the implicit `int -> uint8_t` conversion at a memory store is
the explicit `% 256` at the write site.  The fixed 256-byte memory array
is a `List Int` whose length is 256 in every reachable state; the
out-of-bounds read that `fetch` can perform is modelled by an `Option`
returning read (`none` models the out-of-bounds access).
-/

namespace Emu

/-- ARCH_BITS from common.h. -/
def ARCH_BITS : Nat := 8

/-- ARCH_BITMASK = (1 << ARCH_BITS) - 1 = 255 from common.h. -/
def ARCH_BITMASK : Int := 255

/-- ARCH_MAXVAL = ARCH_BITMASK from common.h. -/
def ARCH_MAXVAL : Int := 255

/-- INSTRUCTION_SIZE from common.h. -/
def INSTRUCTION_SIZE : Int := 2

/-- MEMORY_SIZE from common.h. -/
def MEMORY_SIZE : Int := 256

/-- MAX_INSTRUCTIONS = MEMORY_SIZE / INSTRUCTION_SIZE from emulator.h. -/
def MAX_INSTRUCTIONS : Nat := 128

/-- struct ProcessorState from common.h: accumulator (data_t = int),
program counter (addr_t = int), and the 256-byte memory array. -/
structure ProcessorState where
  acc : Int
  pc : Int
  memory : List Int
deriving DecidableEq, Repr

/-- The ProcessorState default constructor: everything zeroed. -/
def ProcessorState.init : ProcessorState :=
  { acc := 0, pc := 0, memory := List.replicate 256 0 }

/-- struct InstructionData from common.h: the two instruction bytes. -/
structure InstructionData where
  opcode : Int
  address : Int
deriving DecidableEq, Repr

/-- The InstructionBase class hierarchy from instructions.h, as a closed
variant type: one constructor per leaf subclass, each carrying the
private `_address` field of the base class. -/
inductive InstructionBase where
  | Iadd (address : Int)
  | Iand (address : Int)
  | Iorr (address : Int)
  | Ixor (address : Int)
  | Ildr (address : Int)
  | Istr (address : Int)
  | Ijmp (address : Int)
  | Ijne (address : Int)
deriving DecidableEq, Repr

/-- InstructionBase::get_address from instructions.cpp. -/
def InstructionBase.get_address : InstructionBase → Int
  | .Iadd a => a
  | .Iand a => a
  | .Iorr a => a
  | .Ixor a => a
  | .Ildr a => a
  | .Istr a => a
  | .Ijmp a => a
  | .Ijne a => a

/-- The Iadd constructor: calls `_set_address`, which masks the raw
address to 8 bits (`address & ARCH_BITMASK`). -/
def mkIadd (address : Int) : InstructionBase := .Iadd (address % 256)

/-- The Iand constructor (masks the address, as for Iadd). -/
def mkIand (address : Int) : InstructionBase := .Iand (address % 256)

/-- The Iorr constructor (masks the address). -/
def mkIorr (address : Int) : InstructionBase := .Iorr (address % 256)

/-- The Ixor constructor (masks the address). -/
def mkIxor (address : Int) : InstructionBase := .Ixor (address % 256)

/-- The Ildr constructor (masks the address). -/
def mkIldr (address : Int) : InstructionBase := .Ildr (address % 256)

/-- The Istr constructor (masks the address). -/
def mkIstr (address : Int) : InstructionBase := .Istr (address % 256)

/-- The Ijmp constructor (masks the address). -/
def mkIjmp (address : Int) : InstructionBase := .Ijmp (address % 256)

/-- The Ijne constructor (masks the address). -/
def mkIjne (address : Int) : InstructionBase := .Ijne (address % 256)

/-- Reading the memory cell `state.memory[a]` for an already in-range
index, as the instruction bodies in instructions.cpp do with the
pre-masked `get_address()` value. -/
def memVal (s : ProcessorState) (a : Int) : Int :=
  s.memory.getD a.toNat 0

/-- The instruction-specific `_execute(state)` bodies from
instructions.cpp.  The stored address of an instruction built by one of
the constructors above is already masked to `[0,255]`.  The `uint8_t`
conversion at the STR store site is the `% 256`.  Bitwise operations on
the `int` accumulator are the two's-complement `Int.land`, `Int.lor`
and `Int.xor`. -/
def InstructionBase._execute (i : InstructionBase) (s : ProcessorState) : ProcessorState :=
  match i with
  | .Iadd a => { s with acc := s.acc + memVal s a }
  | .Iand a => { s with acc := Int.land s.acc (memVal s a) }
  | .Iorr a => { s with acc := Int.lor s.acc (memVal s a) }
  | .Ixor a => { s with acc := Int.xor s.acc (memVal s a) }
  | .Ildr a => { s with acc := memVal s a }
  | .Istr a => { s with memory := s.memory.set a.toNat (s.acc % 256) }
  | .Ijmp a => { s with pc := a - 2 }
  | .Ijne a => if s.acc ≠ 0 then { s with pc := a - 2 } else s

/-- InstructionBase::execute from instructions.cpp: run `_execute`,
advance the program counter by INSTRUCTION_SIZE = 2, then trim both the
accumulator and the program counter to 8 bits. -/
def InstructionBase.execute (i : InstructionBase) (s : ProcessorState) : ProcessorState :=
  { i._execute s with
    pc := ((i._execute s).pc + 2) % 256,
    acc := (i._execute s).acc % 256 }

/-- enum InstructionOpcode, value ADD = 0. -/
def ADD : Int := 0

/-- enum InstructionOpcode, value AND = 1. -/
def AND : Int := 1

/-- enum InstructionOpcode, value ORR = 2. -/
def ORR : Int := 2

/-- enum InstructionOpcode, value XOR = 3. -/
def XOR : Int := 3

/-- enum InstructionOpcode, value LDR = 4. -/
def LDR : Int := 4

/-- enum InstructionOpcode, value STR = 5. -/
def STR : Int := 5

/-- enum InstructionOpcode, value JMP = 6. -/
def JMP : Int := 6

/-- enum InstructionOpcode, value JNE = 7. -/
def JNE : Int := 7

/-- enum InstructionOpcode, value NUM_OPCODES = 8. -/
def NUM_OPCODES : Int := 8

/-- InstructionBase::generateInstruction from instructions.cpp: the
static factory mapping an opcode byte to a freshly constructed
instruction of the matching variant, or `none` (the NULL return) for
any unknown opcode. -/
def InstructionBase.generateInstruction (data : InstructionData) : Option InstructionBase :=
  if data.opcode = ADD then some (mkIadd data.address)
  else if data.opcode = AND then some (mkIand data.address)
  else if data.opcode = ORR then some (mkIorr data.address)
  else if data.opcode = XOR then some (mkIxor data.address)
  else if data.opcode = LDR then some (mkIldr data.address)
  else if data.opcode = STR then some (mkIstr data.address)
  else if data.opcode = JMP then some (mkIjmp data.address)
  else if data.opcode = JNE then some (mkIjne data.address)
  else none

/-- A checked read of `state.memory[i]`: `none` models an access that
falls outside the 256-byte array (an out-of-bounds access in the C++
source, where the array subscript is unchecked). -/
def memGet? (s : ProcessorState) (i : Int) : Option Int :=
  if i < 0 then none else s.memory.get? i.toNat

/-- Emulator::fetch from emulator.cpp: reads `memory[pc]` as the opcode
byte and `memory[pc + 1]` as the address byte, with no masking of
either index.  `none` means one of the two reads fell outside the
memory array. -/
def fetch (s : ProcessorState) : Option InstructionData :=
  match memGet? s s.pc, memGet? s (s.pc + 1) with
  | some op, some ad => some { opcode := op, address := ad }
  | _, _ => none

/-- Emulator::decode from emulator.cpp: a thin wrapper around the
factory. -/
def decode (data : InstructionData) : Option InstructionBase :=
  InstructionBase.generateInstruction data

/-- Emulator::read_mem from emulator.cpp: limits the address to the
allowed range (`address &= ARCH_BITMASK`) before indexing. -/
def read_mem (s : ProcessorState) (address : Int) : Int :=
  s.memory.getD (address % 256).toNat 0

/-- class Breakpoint from emulator.h: the address broken on and the
symbolic name. -/
structure Breakpoint where
  _address : Int
  _name : String
deriving DecidableEq, Repr

/-- The Breakpoint constructor from emulator.cpp: stores
`address & ARCH_BITMASK` and the name. -/
def Breakpoint.make (address : Int) (name : String) : Breakpoint :=
  { _address := address % 256, _name := name }

/-- Breakpoint::has(addr_t) from emulator.cpp: compares the stored
address against the masked query address. -/
def Breakpoint.has_addr (b : Breakpoint) (address : Int) : Bool :=
  b._address = address % 256

/-- Breakpoint::has(string) from emulator.cpp: exact string match. -/
def Breakpoint.has_name (b : Breakpoint) (name : String) : Bool :=
  b._name = name

/-- Emulator::find_breakpoint(addr_t) from emulator.cpp: the first
breakpoint in the vector whose `has(address)` holds, or NULL. -/
def find_breakpoint (bps : List Breakpoint) (address : Int) : Option Breakpoint :=
  bps.find? (fun b => b.has_addr address)

/-- Emulator::find_breakpoint(string) from emulator.cpp: the first
breakpoint whose `has(name)` holds, or NULL. -/
def find_breakpoint_name (bps : List Breakpoint) (name : String) : Option Breakpoint :=
  bps.find? (fun b => b.has_name name)

/-- Emulator::insert_breakpoint from emulator.cpp (attempt 2): fail if
the masked address or the name is already registered, otherwise
push_back a new Breakpoint.  The vector-based implementation has no
capacity test.  The `Int` component is the C++ return value (1 success,
0 failure); the list is the breakpoint vector afterwards. -/
def insert_breakpoint (bps : List Breakpoint) (address : Int) (name : String) :
    Int × List Breakpoint :=
  match find_breakpoint bps address with
  | some _ => (0, bps)
  | none =>
    match find_breakpoint_name bps name with
    | some _ => (0, bps)
    | none => (1, bps ++ [Breakpoint.make address name])

/-- The index-search loop of Emulator::delete_breakpoint(addr_t): it
walks the whole vector and keeps overwriting `target`, so it ends on
the LAST index whose stored (already masked) address equals the raw
query address; `none` is `target == -1`.  Note the comparison here does
not mask the query. -/
def lastMatchIdx (address : Int) : List Breakpoint → Option Nat
  | [] => none
  | b :: rest =>
    match lastMatchIdx address rest with
    | some j => some (j + 1)
    | none => if b._address = address then some 0 else none

/-- Emulator::delete_breakpoint(addr_t) from emulator.cpp (attempt 2):
return 0 if `find_breakpoint` misses; otherwise re-scan for the index
of the matching entry and erase it from the vector (the erase shifts
every later entry down by one). -/
def delete_breakpoint (bps : List Breakpoint) (address : Int) : Int × List Breakpoint :=
  match find_breakpoint bps address with
  | none => (0, bps)
  | some _ =>
    match lastMatchIdx address bps with
    | none => (0, bps)
    | some t => (1, bps.eraseIdx t)

/-- Emulator::delete_breakpoint(string) from emulator.cpp (attempt 2):
find by name, then delegate to deletion by the found address. -/
def delete_breakpoint_name (bps : List Breakpoint) (name : String) : Int × List Breakpoint :=
  match find_breakpoint_name bps name with
  | none => (0, bps)
  | some found => delete_breakpoint bps found._address

/-- Emulator::num_breakpoints from emulator.cpp. -/
def num_breakpoints (bps : List Breakpoint) : Int :=
  bps.length

/-- The registry invariant maintained by insert_breakpoint: stored
addresses are pre-masked to `[0,255]`, and both the addresses and the
names of the active breakpoints are pairwise distinct. -/
def validRegistry (bps : List Breakpoint) : Prop :=
  (∀ b ∈ bps, 0 ≤ b._address ∧ b._address < 256)
  ∧ (bps.map Breakpoint._address).Nodup
  ∧ (bps.map Breakpoint._name).Nodup

instance (bps : List Breakpoint) : Decidable (validRegistry bps) := by
  unfold validRegistry
  infer_instance

/-- The breakpoint-record phase of Emulator::load_state (attempt 2,
emulator.cpp lines 472 to 496), acting on the registry that the load
has already cleared: for each `<address> <name>` record in order, the
address is sanity-tested (`0 <= num < MEMORY_SIZE`) and the breakpoint
inserted; any failure aborts the load with return value 0, leaving the
registry exactly as it was at that point. -/
def load_breakpoint_records : List (Int × String) → List Breakpoint → Int × List Breakpoint
  | [], bps => (1, bps)
  | (num, name) :: rest, bps =>
    if num < 0 ∨ 256 ≤ num then (0, bps)
    else
      match insert_breakpoint bps num name with
      | (r, bps2) => if r = 0 then (0, bps) else load_breakpoint_records rest bps2

/-- Emulator::load_state restricted to its breakpoint handling, for a
state file whose numeric header and 256 memory lines are well formed:
`breakpoints_v.clear()` runs first (line 359), then the record loop.
The result pairs the C++ return value with the registry contents the
emulator is left with. -/
def load_state_records (records : List (Int × String)) : Int × List Breakpoint :=
  load_breakpoint_records records []

/-- A concrete processor state with program counter 255 and a full
256-byte memory, used to exhibit the out-of-bounds fetch. -/
def stOOB : ProcessorState :=
  { acc := 0, pc := 255, memory := List.replicate 256 0 }

/-- A concrete processor state with program counter 0. -/
def stFetchOk : ProcessorState :=
  { acc := 0, pc := 0, memory := List.replicate 256 0 }

/-- A concrete processor state with a nonzero accumulator. -/
def stC1 : ProcessorState :=
  { acc := 3, pc := 10, memory := List.replicate 256 0 }

/-- A concrete processor state with accumulator 5 and memory cell 3
holding 7. -/
def stC3 : ProcessorState :=
  { acc := 5, pc := 0, memory := (List.replicate 256 0).set 3 7 }

/-- A registry already holding 128 breakpoints (the capacity bound
MAX_INSTRUCTIONS of the fixed-array variants), with addresses 0 to 127
and pairwise distinct names. -/
def bps128 : List Breakpoint :=
  (List.range 128).map (fun i => { _address := (i : Int), _name := toString i })

/-- A small concrete registry with two breakpoints. -/
def bpsW : List Breakpoint :=
  [{ _address := 6, _name := "x" }, { _address := 8, _name := "y" }]

/-- Claim C1: for every processor state and every address a in [0,255],
executing a JNE instruction constructed with address a sets the program
counter to a mod 256 if the accumulator is nonzero at call time, and
otherwise to (pc_before + 2) mod 256; in both cases the accumulator is
left unchanged, given it was in [0,255]. -/
theorem jne_execute_spec (s : ProcessorState) (a : Int)
    (ha0 : 0 ≤ a) (ha : a < 256) (hacc0 : 0 ≤ s.acc) (hacc : s.acc < 256) :
    (s.acc ≠ 0 → ((mkIjne a).execute s).pc = a % 256)
    ∧ (s.acc = 0 → ((mkIjne a).execute s).pc = (s.pc + 2) % 256)
    ∧ ((mkIjne a).execute s).acc = s.acc := by
  have hma : a % 256 = a := Int.emod_eq_of_lt ha0 ha
  have hmacc : s.acc % 256 = s.acc := Int.emod_eq_of_lt hacc0 hacc
  refine ⟨?_, ?_, ?_⟩
  · intro h
    simp [InstructionBase.execute, InstructionBase._execute, mkIjne, h, hma]
  · intro h
    simp [InstructionBase.execute, InstructionBase._execute, mkIjne, h]
  · by_cases h : s.acc = 0 <;>
      simp [InstructionBase.execute, InstructionBase._execute, mkIjne, h, hmacc]

/-- Witness for C1, at a state with accumulator 3 and pc 10: the taken
branch lands on the (masked) target address and keeps the
accumulator. -/
theorem jne_execute_spec_witness :
    ((mkIjne 4).execute stC1).pc = 4 % 256 ∧ ((mkIjne 4).execute stC1).acc = stC1.acc :=
  ⟨(jne_execute_spec stC1 4 (by decide) (by decide) (by decide) (by decide)).1 (by decide),
   (jne_execute_spec stC1 4 (by decide) (by decide) (by decide) (by decide)).2.2⟩

/-- Claim C2: for every processor state and every address a in [0,255]
(including a = 0 and a = 1, where the intermediate a - 2 written by
_execute is negative), executing a JMP instruction constructed with
address a sets the program counter to exactly a mod 256, regardless of
the prior program counter, in one call. -/
theorem jmp_execute_spec (s : ProcessorState) (a : Int)
    (ha0 : 0 ≤ a) (ha : a < 256) :
    ((mkIjmp a).execute s).pc = a % 256 := by
  have hma : a % 256 = a := Int.emod_eq_of_lt ha0 ha
  simp [InstructionBase.execute, InstructionBase._execute, mkIjmp, hma]

/-- Witness for C2, at the edge case a = 0 (negative intermediate) from
a state whose pc is 10. -/
theorem jmp_execute_spec_witness : ((mkIjmp 0).execute stC1).pc = 0 % 256 :=
  jmp_execute_spec stC1 0 (by decide) (by decide)

/-- Claim C3: for every accumulator value v in [0,255], every memory
byte m, and every address a in [0,255] with memory[a] = m: after ADD
the accumulator equals (v + m) mod 256; after AND, ORR, XOR it equals
the corresponding bitwise operation of v and m, which stays within 8
bits; and after LDR it equals m. -/
theorem alu_execute_acc_spec (s : ProcessorState) (v m a : Int)
    (hv0 : 0 ≤ v) (hv : v < 256) (hm0 : 0 ≤ m) (hm : m < 256)
    (ha0 : 0 ≤ a) (ha : a < 256)
    (hacc : s.acc = v) (hmem : memVal s a = m) :
    ((mkIadd a).execute s).acc = (v + m) % 256
    ∧ ((mkIand a).execute s).acc = Int.land v m
    ∧ (0 ≤ Int.land v m ∧ Int.land v m < 256)
    ∧ ((mkIorr a).execute s).acc = Int.lor v m
    ∧ (0 ≤ Int.lor v m ∧ Int.lor v m < 256)
    ∧ ((mkIxor a).execute s).acc = Int.xor v m
    ∧ (0 ≤ Int.xor v m ∧ Int.xor v m < 256)
    ∧ ((mkIldr a).execute s).acc = m := by
  have hma : a % 256 = a := Int.emod_eq_of_lt ha0 ha
  have hmm : m % 256 = m := Int.emod_eq_of_lt hm0 hm
  obtain ⟨p, rfl⟩ : ∃ p : Nat, v = (p : Int) := ⟨v.toNat, (Int.toNat_of_nonneg hv0).symm⟩
  obtain ⟨q, rfl⟩ : ∃ q : Nat, m = (q : Int) := ⟨m.toNat, (Int.toNat_of_nonneg hm0).symm⟩
  have hq8 : q < 2 ^ 8 := by exact_mod_cast hm
  have hp8 : p < 2 ^ 8 := by exact_mod_cast hv
  have hland : Int.land (p : Int) (q : Int) = ((p &&& q : Nat) : Int) := rfl
  have hlor : Int.lor (p : Int) (q : Int) = ((p ||| q : Nat) : Int) := rfl
  have hlxor : Int.xor (p : Int) (q : Int) = ((p ^^^ q : Nat) : Int) := rfl
  have hba : ((p &&& q : Nat) : Int) < 256 := by exact_mod_cast Nat.and_lt_two_pow p hq8
  have hbo : ((p ||| q : Nat) : Int) < 256 := by exact_mod_cast Nat.or_lt_two_pow hp8 hq8
  have hbx : ((p ^^^ q : Nat) : Int) < 256 := by exact_mod_cast Nat.xor_lt_two_pow hp8 hq8
  refine ⟨?_, ?_, ⟨?_, ?_⟩, ?_, ⟨?_, ?_⟩, ?_, ⟨?_, ?_⟩, ?_⟩
  · simp [InstructionBase.execute, InstructionBase._execute, mkIadd, hma, hacc, hmem]
  · simp only [InstructionBase.execute, InstructionBase._execute, mkIand, hma, hacc, hmem]
    rw [hland, Int.emod_eq_of_lt (Int.natCast_nonneg _) hba]
  · rw [hland]; exact Int.natCast_nonneg _
  · rw [hland]; exact hba
  · simp only [InstructionBase.execute, InstructionBase._execute, mkIorr, hma, hacc, hmem]
    rw [hlor, Int.emod_eq_of_lt (Int.natCast_nonneg _) hbo]
  · rw [hlor]; exact Int.natCast_nonneg _
  · rw [hlor]; exact hbo
  · simp only [InstructionBase.execute, InstructionBase._execute, mkIxor, hma, hacc, hmem]
    rw [hlxor, Int.emod_eq_of_lt (Int.natCast_nonneg _) hbx]
  · rw [hlxor]; exact Int.natCast_nonneg _
  · rw [hlxor]; exact hbx
  · simp [InstructionBase.execute, InstructionBase._execute, mkIldr, hma, hmem, hmm]

/-- Witness for C3, at accumulator 5, operand byte 7 in cell 3:
ADD gives 12, AND gives 5, ORR gives 7, XOR gives 2, LDR gives 7. -/
theorem alu_execute_acc_spec_witness :
    ((mkIadd 3).execute stC3).acc = (5 + 7) % 256
    ∧ ((mkIand 3).execute stC3).acc = Int.land 5 7
    ∧ ((mkIorr 3).execute stC3).acc = Int.lor 5 7
    ∧ ((mkIxor 3).execute stC3).acc = Int.xor 5 7
    ∧ ((mkIldr 3).execute stC3).acc = 7 := by
  have h := alu_execute_acc_spec stC3 5 7 3 (by decide) (by decide) (by decide)
    (by decide) (by decide) (by decide) (by decide) (by decide)
  exact ⟨h.1, h.2.1, h.2.2.2.1, h.2.2.2.2.2.1, h.2.2.2.2.2.2.2⟩

/-- Claim C4: for every processor state and every address a in [0,255]:
executing any of ADD, AND, ORR, XOR, LDR leaves the program counter at
(pc_before + 2) mod 256 and leaves the memory byte list unchanged;
executing STR writes the accumulator to memory[a], leaves every other
memory byte unchanged, and leaves the accumulator unchanged. -/
theorem alu_str_frame_spec (s : ProcessorState) (a : Int)
    (ha0 : 0 ≤ a) (ha : a < 256)
    (hacc0 : 0 ≤ s.acc) (hacc : s.acc < 256) (hlen : s.memory.length = 256) :
    ((mkIadd a).execute s).pc = (s.pc + 2) % 256
    ∧ ((mkIadd a).execute s).memory = s.memory
    ∧ ((mkIand a).execute s).pc = (s.pc + 2) % 256
    ∧ ((mkIand a).execute s).memory = s.memory
    ∧ ((mkIorr a).execute s).pc = (s.pc + 2) % 256
    ∧ ((mkIorr a).execute s).memory = s.memory
    ∧ ((mkIxor a).execute s).pc = (s.pc + 2) % 256
    ∧ ((mkIxor a).execute s).memory = s.memory
    ∧ ((mkIldr a).execute s).pc = (s.pc + 2) % 256
    ∧ ((mkIldr a).execute s).memory = s.memory
    ∧ ((mkIstr a).execute s).memory = s.memory.set a.toNat s.acc
    ∧ (∀ i : Nat, i ≠ a.toNat →
        ((mkIstr a).execute s).memory.getD i 0 = s.memory.getD i 0)
    ∧ memVal ((mkIstr a).execute s) a = s.acc
    ∧ ((mkIstr a).execute s).acc = s.acc := by
  have hma : a % 256 = a := Int.emod_eq_of_lt ha0 ha
  have hmacc : s.acc % 256 = s.acc := Int.emod_eq_of_lt hacc0 hacc
  have hlt : a.toNat < s.memory.length := by omega
  refine ⟨?_, ?_, ?_, ?_, ?_, ?_, ?_, ?_, ?_, ?_, ?_, ?_, ?_, ?_⟩
  · simp [InstructionBase.execute, InstructionBase._execute, mkIadd]
  · simp [InstructionBase.execute, InstructionBase._execute, mkIadd]
  · simp [InstructionBase.execute, InstructionBase._execute, mkIand]
  · simp [InstructionBase.execute, InstructionBase._execute, mkIand]
  · simp [InstructionBase.execute, InstructionBase._execute, mkIorr]
  · simp [InstructionBase.execute, InstructionBase._execute, mkIorr]
  · simp [InstructionBase.execute, InstructionBase._execute, mkIxor]
  · simp [InstructionBase.execute, InstructionBase._execute, mkIxor]
  · simp [InstructionBase.execute, InstructionBase._execute, mkIldr]
  · simp [InstructionBase.execute, InstructionBase._execute, mkIldr]
  · simp [InstructionBase.execute, InstructionBase._execute, mkIstr, hma, hmacc]
  · intro i hi
    simp only [InstructionBase.execute, InstructionBase._execute, mkIstr, hma]
    rw [List.getD_eq_getElem?_getD, List.getD_eq_getElem?_getD,
      List.getElem?_set_ne (by omega)]
  · simp only [memVal, InstructionBase.execute, InstructionBase._execute, mkIstr, hma]
    rw [List.getD_eq_getElem?_getD, List.getElem?_set_self (by omega)]
    simp [hmacc]
  · simp [InstructionBase.execute, InstructionBase._execute, mkIstr, hmacc]

/-- Witness for C4, at the state with accumulator 5, pc 0 and memory
cell 3 holding 7: ADD advances the pc to 2 and leaves memory alone, and
STR writes 5 into cell 3. -/
theorem alu_str_frame_spec_witness :
    ((mkIadd 3).execute stC3).pc = (stC3.pc + 2) % 256
    ∧ ((mkIadd 3).execute stC3).memory = stC3.memory
    ∧ ((mkIstr 3).execute stC3).memory = stC3.memory.set (3 : Int).toNat stC3.acc
    ∧ ((mkIstr 3).execute stC3).acc = stC3.acc := by
  have h := alu_str_frame_spec stC3 3 (by decide) (by decide) (by decide) (by decide)
    (by simp only [stC3, List.length_set, List.length_replicate])
  exact ⟨h.1, h.2.1, h.2.2.2.2.2.2.2.2.2.2.1, h.2.2.2.2.2.2.2.2.2.2.2.2.2⟩

/-- Claim C5: the decode factory is total over the full opcode byte
range and never throws (it is a total function into an Option): for
every opcode byte in [0,7] it yields a freshly constructed instruction
of the matching variant carrying the given address, and for every
opcode byte in [8,255] and every possible address byte it yields
absence. -/
theorem generateInstruction_spec (op ad : Int)
    (hop8 : 8 ≤ op) (hop : op < 256) (had0 : 0 ≤ ad) (had : ad < 256) :
    InstructionBase.generateInstruction { opcode := op, address := ad } = none
    ∧ InstructionBase.generateInstruction { opcode := 0, address := ad } = some (.Iadd ad)
    ∧ InstructionBase.generateInstruction { opcode := 1, address := ad } = some (.Iand ad)
    ∧ InstructionBase.generateInstruction { opcode := 2, address := ad } = some (.Iorr ad)
    ∧ InstructionBase.generateInstruction { opcode := 3, address := ad } = some (.Ixor ad)
    ∧ InstructionBase.generateInstruction { opcode := 4, address := ad } = some (.Ildr ad)
    ∧ InstructionBase.generateInstruction { opcode := 5, address := ad } = some (.Istr ad)
    ∧ InstructionBase.generateInstruction { opcode := 6, address := ad } = some (.Ijmp ad)
    ∧ InstructionBase.generateInstruction { opcode := 7, address := ad } = some (.Ijne ad) := by
  have hma : ad % 256 = ad := Int.emod_eq_of_lt had0 had
  refine ⟨?_, ?_, ?_, ?_, ?_, ?_, ?_, ?_, ?_⟩
  · unfold InstructionBase.generateInstruction
    simp only [ADD, AND, ORR, XOR, LDR, STR, JMP, JNE]
    split_ifs with h1 h2 h3 h4 h5 h6 h7 h8 <;> first | rfl | omega
  · simp [InstructionBase.generateInstruction, ADD, AND, ORR, XOR, LDR, STR, JMP, JNE,
      mkIadd, hma]
  · simp [InstructionBase.generateInstruction, ADD, AND, ORR, XOR, LDR, STR, JMP, JNE,
      mkIand, hma]
  · simp [InstructionBase.generateInstruction, ADD, AND, ORR, XOR, LDR, STR, JMP, JNE,
      mkIorr, hma]
  · simp [InstructionBase.generateInstruction, ADD, AND, ORR, XOR, LDR, STR, JMP, JNE,
      mkIxor, hma]
  · simp [InstructionBase.generateInstruction, ADD, AND, ORR, XOR, LDR, STR, JMP, JNE,
      mkIldr, hma]
  · simp [InstructionBase.generateInstruction, ADD, AND, ORR, XOR, LDR, STR, JMP, JNE,
      mkIstr, hma]
  · simp [InstructionBase.generateInstruction, ADD, AND, ORR, XOR, LDR, STR, JMP, JNE,
      mkIjmp, hma]
  · simp [InstructionBase.generateInstruction, ADD, AND, ORR, XOR, LDR, STR, JMP, JNE,
      mkIjne, hma]

/-- Witness for C5, at opcode byte 8 (= NUM_OPCODES) and address byte
0: decode yields absence, while opcode 0 yields an ADD instruction
carrying the address. -/
theorem generateInstruction_spec_witness :
    InstructionBase.generateInstruction { opcode := 8, address := 0 } = none
    ∧ InstructionBase.generateInstruction { opcode := 0, address := 0 }
      = some (.Iadd 0) :=
  ⟨(generateInstruction_spec 8 0 (by decide) (by decide) (by decide) (by decide)).1,
   (generateInstruction_spec 8 0 (by decide) (by decide) (by decide) (by decide)).2.1⟩

/-- Counterexample to C6 as stated: at the concrete state stOOB, whose
memory holds all 256 bytes and whose program counter is 255 (a value in
[0,255] reachable by, for example, a JMP to address 255), fetch reads
`memory[pc + 1]` without masking, that is index 256, one past the
array: the bounds-checked embedding of that read returns none instead
of a byte, so fetch does index out of bounds, contradicting the
claim. -/
theorem fetch_oob_counterexample :
    stOOB.memory.length = 256 ∧ stOOB.pc = 255 ∧ fetch stOOB = none := by
  refine ⟨?_, rfl, ?_⟩
  · simp only [stOOB, List.length_replicate]
  · decide

/-- Claim C6 (amended): memory accesses that go through a masked
address stay within the 256-byte array — `read_mem` masks its address
to [0,255] before indexing, and every instruction the decode factory
produces carries an operand address already masked to [0,255] — and
fetch stays in bounds for every program counter in [0,254]; but at
pc = 255 fetch reads `memory[pc + 1]` = index 256 without masking,
which is one past the array (out of bounds). -/
theorem memory_access_bounds_spec (s : ProcessorState)
    (hlen : s.memory.length = 256) (hpc0 : 0 ≤ s.pc) :
    (s.pc ≤ 254 → (fetch s).isSome = true)
    ∧ (s.pc = 255 → fetch s = none)
    ∧ (∀ a : Int, (a % 256).toNat < s.memory.length)
    ∧ (∀ dta ins, InstructionBase.generateInstruction dta = some ins →
        0 ≤ ins.get_address ∧ ins.get_address < 256) := by
  refine ⟨?_, ?_, ?_, ?_⟩
  · intro hle
    have h1 : s.pc.toNat < s.memory.length := by omega
    have h2 : (s.pc + 1).toNat < s.memory.length := by omega
    unfold fetch memGet?
    rw [if_neg (by omega), if_neg (by omega)]
    rw [List.get?_eq_get h1, List.get?_eq_get h2]
    rfl
  · intro h255
    have h1 : s.memory.get? (s.pc + 1).toNat = none := by
      rw [List.get?_eq_none]
      omega
    unfold fetch memGet?
    rw [if_neg (by omega), if_neg (by omega), h1]
    cases s.memory.get? s.pc.toNat <;> rfl
  · intro a
    have h1 : 0 ≤ a % 256 := Int.emod_nonneg a (by norm_num)
    have h2 : a % 256 < 256 := Int.emod_lt_of_pos a (by norm_num)
    omega
  · intro dta ins h
    have hb : ∀ x : Int, 0 ≤ x % 256 ∧ x % 256 < 256 := fun x =>
      ⟨Int.emod_nonneg x (by norm_num), Int.emod_lt_of_pos x (by norm_num)⟩
    unfold InstructionBase.generateInstruction at h
    split at h
    · injection h with h2; subst h2
      simp only [mkIadd, InstructionBase.get_address]; exact hb _
    · split at h
      · injection h with h2; subst h2
        simp only [mkIand, InstructionBase.get_address]; exact hb _
      · split at h
        · injection h with h2; subst h2
          simp only [mkIorr, InstructionBase.get_address]; exact hb _
        · split at h
          · injection h with h2; subst h2
            simp only [mkIxor, InstructionBase.get_address]; exact hb _
          · split at h
            · injection h with h2; subst h2
              simp only [mkIldr, InstructionBase.get_address]; exact hb _
            · split at h
              · injection h with h2; subst h2
                simp only [mkIstr, InstructionBase.get_address]; exact hb _
              · split at h
                · injection h with h2; subst h2
                  simp only [mkIjmp, InstructionBase.get_address]; exact hb _
                · split at h
                  · injection h with h2; subst h2
                    simp only [mkIjne, InstructionBase.get_address]; exact hb _
                  · simp at h

/-- Witness for the amended C6, at the state with pc 0: fetch succeeds,
and the masked read_mem index of the raw address 300 is in bounds. -/
theorem memory_access_bounds_spec_witness :
    (fetch stFetchOk).isSome = true
    ∧ ((300 : Int) % 256).toNat < stFetchOk.memory.length :=
  ⟨(memory_access_bounds_spec stFetchOk
      (by simp only [stFetchOk, List.length_replicate]) (by decide)).1 (by decide),
   (memory_access_bounds_spec stFetchOk
      (by simp only [stFetchOk, List.length_replicate]) (by decide)).2.2.1 300⟩

set_option maxRecDepth 8192 in
/-- Counterexample to C7 as stated: bps128 is a registry already
holding 128 breakpoints (the MAX_INSTRUCTIONS capacity bound of the
fixed-array design), yet inserting a breakpoint with a fresh address
and a fresh name succeeds (returns 1) and appends a 129th entry: the
vector-based insert_breakpoint of attempt 2 has no capacity test, so
the claimed failure at 128 entries does not happen. -/
theorem insert_at_capacity_counterexample :
    bps128.length = 128
    ∧ insert_breakpoint bps128 200 "z" = (1, bps128 ++ [Breakpoint.make 200 "z"]) := by
  constructor
  · decide
  · decide

/-- Claim C7 (amended): insert_breakpoint fails (returns 0) and
performs no mutation whenever an active breakpoint already has the
given masked address, or whenever one already has the exact same name;
otherwise — with no capacity test of any kind — it appends a new
breakpoint carrying the masked address and succeeds (returns 1). -/
theorem insert_breakpoint_spec (bps : List Breakpoint) (address : Int) (name : String) :
    ((∃ b ∈ bps, b._address = address % 256) →
        insert_breakpoint bps address name = (0, bps))
    ∧ ((∃ b ∈ bps, b._name = name) →
        insert_breakpoint bps address name = (0, bps))
    ∧ (((∀ b ∈ bps, b._address ≠ address % 256) ∧ (∀ b ∈ bps, b._name ≠ name)) →
        insert_breakpoint bps address name = (1, bps ++ [Breakpoint.make address name])) := by
  refine ⟨?_, ?_, ?_⟩
  · rintro ⟨b, hb, hba⟩
    have hs : (find_breakpoint bps address).isSome := by
      rw [find_breakpoint]
      exact List.find?_isSome.mpr ⟨b, hb, by simp [Breakpoint.has_addr, hba]⟩
    obtain ⟨c, hc⟩ := Option.isSome_iff_exists.mp hs
    unfold insert_breakpoint
    rw [hc]
  · rintro ⟨b, hb, hbn⟩
    unfold insert_breakpoint
    cases hfa : find_breakpoint bps address with
    | some c => rfl
    | none =>
      have hs : (find_breakpoint_name bps name).isSome := by
        rw [find_breakpoint_name]
        exact List.find?_isSome.mpr ⟨b, hb, by simp [Breakpoint.has_name, hbn]⟩
      obtain ⟨c, hc⟩ := Option.isSome_iff_exists.mp hs
      rw [hc]
  · rintro ⟨hna, hnn⟩
    have hfa : find_breakpoint bps address = none := by
      rw [find_breakpoint, List.find?_eq_none]
      intro b hb
      simp only [Breakpoint.has_addr, decide_eq_true_eq]
      exact hna b hb
    have hfn : find_breakpoint_name bps name = none := by
      rw [find_breakpoint_name, List.find?_eq_none]
      intro b hb
      simp only [Breakpoint.has_name, decide_eq_true_eq]
      exact hnn b hb
    unfold insert_breakpoint
    rw [hfa, hfn]

/-- Witness for the amended C7: inserting into the empty registry
appends the new (masked) breakpoint and returns 1. -/
theorem insert_breakpoint_spec_witness :
    insert_breakpoint [] 5 "a" = (1, [] ++ [Breakpoint.make 5 "a"]) :=
  (insert_breakpoint_spec [] 5 "a").2.2 ⟨by simp, by simp⟩

/-- If no breakpoint in the list carries the queried raw address, the
index-search loop of delete_breakpoint ends with target = -1. -/
theorem lastMatchIdx_eq_none (address : Int) (bps : List Breakpoint)
    (h : ∀ b ∈ bps, b._address ≠ address) : lastMatchIdx address bps = none := by
  induction bps with
  | nil => rfl
  | cons b rest ih =>
    have hr := ih (fun c hc => h c (List.mem_cons_of_mem _ hc))
    unfold lastMatchIdx
    rw [hr, if_neg (h b (List.mem_cons_self _ _))]

/-- With pairwise distinct stored addresses, the index-search loop of
delete_breakpoint finds exactly the index of the matching entry. -/
theorem lastMatchIdx_eq_some (address : Int) (bps : List Breakpoint)
    (hnd : (bps.map Breakpoint._address).Nodup)
    (i : Nat) (hi : i < bps.length) (hb : (bps.get ⟨i, hi⟩)._address = address) :
    lastMatchIdx address bps = some i := by
  induction bps generalizing i with
  | nil => simp at hi
  | cons b rest ih =>
    rw [List.map_cons, List.nodup_cons] at hnd
    obtain ⟨hnotin, hnd2⟩ := hnd
    cases i with
    | zero =>
      have hb0 : b._address = address := hb
      have hnone : lastMatchIdx address rest = none := by
        apply lastMatchIdx_eq_none
        intro c hc hca
        apply hnotin
        have hbc : b._address = c._address := by rw [hb0, hca]
        rw [hbc]
        exact List.mem_map_of_mem _ hc
      unfold lastMatchIdx
      rw [hnone, if_pos hb0]
    | succ k =>
      have hk : k < rest.length := by simpa using hi
      have hbk : (rest.get ⟨k, hk⟩)._address = address := hb
      unfold lastMatchIdx
      rw [ih hnd2 k hk hbk]

/-- With pairwise distinct names, find_breakpoint(name) returns exactly
the entry at the index carrying that name. -/
theorem find_breakpoint_name_eq_of_nodup (name : String) (bps : List Breakpoint)
    (hnd : (bps.map Breakpoint._name).Nodup)
    (i : Nat) (hi : i < bps.length) (hb : (bps.get ⟨i, hi⟩)._name = name) :
    find_breakpoint_name bps name = some (bps.get ⟨i, hi⟩) := by
  induction bps generalizing i with
  | nil => simp at hi
  | cons b rest ih =>
    rw [List.map_cons, List.nodup_cons] at hnd
    obtain ⟨hnotin, hnd2⟩ := hnd
    cases i with
    | zero =>
      have hb0 : b._name = name := hb
      unfold find_breakpoint_name
      rw [List.find?_cons_of_pos _ (by simp [Breakpoint.has_name, hb0])]
      rfl
    | succ k =>
      have hk : k < rest.length := by simpa using hi
      have hbk : (rest.get ⟨k, hk⟩)._name = name := hb
      have hbn : b._name ≠ name := by
        intro he
        apply hnotin
        rw [he, ← hbk]
        exact List.mem_map_of_mem _ (List.get_mem _ _ _)
      have htail := ih hnd2 k hk hbk
      unfold find_breakpoint_name at htail ⊢
      rw [List.find?_cons_of_neg _ (by simp [Breakpoint.has_name, hbn]), htail]
      rfl

/-- Claim C8: on a registry satisfying the invariant (masked stored
addresses, pairwise distinct addresses and names) and for a byte
address in [0,255]: deleting by a present address or a present name
removes exactly that entry — the survivors are the entries before it
followed by the entries after it shifted down one position — and
returns 1 with the count decremented by one; deleting a missing
address or name returns 0 with no change. -/
theorem delete_breakpoint_spec (bps : List Breakpoint) (hv : validRegistry bps)
    (address : Int) (ha0 : 0 ≤ address) (ha : address < 256) (name : String) :
    (∀ i : Nat, ∀ hi : i < bps.length, (bps.get ⟨i, hi⟩)._address = address →
        delete_breakpoint bps address = (1, bps.take i ++ bps.drop (i + 1))
        ∧ (bps.take i ++ bps.drop (i + 1)).length + 1 = bps.length)
    ∧ ((∀ b ∈ bps, b._address ≠ address) →
        delete_breakpoint bps address = (0, bps))
    ∧ (∀ i : Nat, ∀ hi : i < bps.length, (bps.get ⟨i, hi⟩)._name = name →
        delete_breakpoint_name bps name = (1, bps.take i ++ bps.drop (i + 1))
        ∧ (bps.take i ++ bps.drop (i + 1)).length + 1 = bps.length)
    ∧ ((∀ b ∈ bps, b._name ≠ name) →
        delete_breakpoint_name bps name = (0, bps)) := by
  obtain ⟨hrange, hnda, hndn⟩ := hv
  have hdel : ∀ addr2 : Int, 0 ≤ addr2 → addr2 < 256 →
      ∀ i : Nat, ∀ hi : i < bps.length, (bps.get ⟨i, hi⟩)._address = addr2 →
      delete_breakpoint bps addr2 = (1, bps.take i ++ bps.drop (i + 1)) := by
    intro addr2 h0 h2 i hi hbi
    have hma : addr2 % 256 = addr2 := Int.emod_eq_of_lt h0 h2
    have hfind : (find_breakpoint bps addr2).isSome := by
      rw [find_breakpoint]
      refine List.find?_isSome.mpr ⟨bps.get ⟨i, hi⟩, List.get_mem _ _ _, ?_⟩
      simp only [Breakpoint.has_addr, hma, decide_eq_true_eq]
      exact hbi
    obtain ⟨c, hc⟩ := Option.isSome_iff_exists.mp hfind
    have hlast : lastMatchIdx addr2 bps = some i :=
      lastMatchIdx_eq_some addr2 bps hnda i hi hbi
    unfold delete_breakpoint
    rw [hc, hlast]
    show (1, bps.eraseIdx i) = (1, bps.take i ++ bps.drop (i + 1))
    rw [List.eraseIdx_eq_take_drop_succ]
  have hlen : ∀ i : Nat, i < bps.length →
      (bps.take i ++ bps.drop (i + 1)).length + 1 = bps.length := by
    intro i hi
    rw [List.length_append, List.length_take, List.length_drop]
    omega
  refine ⟨?_, ?_, ?_, ?_⟩
  · intro i hi hbi
    exact ⟨hdel address ha0 ha i hi hbi, hlen i hi⟩
  · intro hnone
    have hma : address % 256 = address := Int.emod_eq_of_lt ha0 ha
    have hfind : find_breakpoint bps address = none := by
      rw [find_breakpoint, List.find?_eq_none]
      intro b hb
      simp only [Breakpoint.has_addr, hma, decide_eq_true_eq]
      exact hnone b hb
    unfold delete_breakpoint
    rw [hfind]
  · intro i hi hbi
    have hfn := find_breakpoint_name_eq_of_nodup name bps hndn i hi hbi
    have hr := hrange (bps.get ⟨i, hi⟩) (List.get_mem _ _ _)
    unfold delete_breakpoint_name
    rw [hfn]
    exact ⟨hdel (bps.get ⟨i, hi⟩)._address hr.1 hr.2 i hi rfl, hlen i hi⟩
  · intro hnone
    have hfn : find_breakpoint_name bps name = none := by
      rw [find_breakpoint_name, List.find?_eq_none]
      intro b hb
      simp only [Breakpoint.has_name, decide_eq_true_eq]
      exact hnone b hb
    unfold delete_breakpoint_name
    rw [hfn]

/-- Witness for C8, on the two-entry registry bpsW: deleting address 6
removes the first entry (the second survives in place), and deleting
name y removes the second entry (the first stays put). -/
theorem delete_breakpoint_spec_witness :
    delete_breakpoint bpsW 6 = (1, bpsW.take 0 ++ bpsW.drop 1)
    ∧ delete_breakpoint_name bpsW "y" = (1, bpsW.take 1 ++ bpsW.drop 2) := by
  have h := delete_breakpoint_spec bpsW (by decide) 6 (by decide) (by decide) "y"
  exact ⟨(h.1 0 (by decide) (by decide)).1, (h.2.2.1 1 (by decide) (by decide)).1⟩

/-- When insert_breakpoint succeeds, the registry gains exactly the new
masked breakpoint at the end, and no pre-existing breakpoint carried
the masked address. -/
theorem insert_breakpoint_success (bps : List Breakpoint) (address : Int) (name : String)
    (h : (insert_breakpoint bps address name).1 ≠ 0) :
    (insert_breakpoint bps address name).2 = bps ++ [Breakpoint.make address name]
    ∧ find_breakpoint bps address = none := by
  unfold insert_breakpoint at h ⊢
  cases hfa : find_breakpoint bps address with
  | some c => rw [hfa] at h; simp at h
  | none =>
    rw [hfa] at h
    cases hfn : find_breakpoint_name bps name with
    | some c => rw [hfn] at h; simp at h
    | none => exact ⟨rfl, rfl⟩

/-- If the registry already holds a breakpoint whose address equals the
masked address of some later record, the record-loading loop of
load_state returns 0. -/
theorem load_breakpoint_records_mem_dup (records : List (Int × String)) :
    ∀ bps : List Breakpoint,
    (∃ b ∈ bps, ∃ k : Nat, k < records.length
      ∧ b._address = (records.getD k (0, "")).1 % 256) →
    (load_breakpoint_records records bps).1 = 0 := by
  induction records with
  | nil =>
    rintro bps ⟨b, hb, k, hk, hbk⟩
    simp at hk
  | cons r rest ih =>
    rintro bps ⟨b, hb, k, hk, hbk⟩
    obtain ⟨num, name⟩ := r
    unfold load_breakpoint_records
    by_cases hs : num < 0 ∨ 256 ≤ num
    · rw [if_pos hs]
    · rw [if_neg hs]
      rcases hins : insert_breakpoint bps num name with ⟨rc, bps2⟩
      by_cases hr : rc = 0
      · show (if rc = 0 then ((0 : Int), bps) else load_breakpoint_records rest bps2).1 = 0
        rw [if_pos hr]
      · show (if rc = 0 then ((0 : Int), bps) else load_breakpoint_records rest bps2).1 = 0
        rw [if_neg hr]
        have hsucc := insert_breakpoint_success bps num name (by rw [hins]; exact hr)
        have hbps2 : bps2 = bps ++ [Breakpoint.make num name] := by
          have := hsucc.1
          rw [hins] at this
          exact this
        cases k with
        | zero =>
          exfalso
          have hfn : find_breakpoint bps num = none := hsucc.2
          rw [find_breakpoint, List.find?_eq_none] at hfn
          apply hfn b hb
          simp only [Breakpoint.has_addr, decide_eq_true_eq]
          simpa using hbk
        | succ k2 =>
          apply ih bps2
          refine ⟨b, ?_, k2, ?_, ?_⟩
          · rw [hbps2]; exact List.mem_append_left _ hb
          · simpa using hk
          · simpa using hbk

/-- If two records at positions i < j of the record list share the same
masked address, the record-loading loop of load_state returns 0, from
any starting registry. -/
theorem load_breakpoint_records_dup (records : List (Int × String)) :
    ∀ (bps : List Breakpoint) (i j : Nat), i < j → j < records.length →
    (records.getD i (0, "")).1 % 256 = (records.getD j (0, "")).1 % 256 →
    (load_breakpoint_records records bps).1 = 0 := by
  induction records with
  | nil =>
    intro bps i j hij hj hd
    simp at hj
  | cons r rest ih =>
    intro bps i j hij hj hd
    obtain ⟨num, name⟩ := r
    unfold load_breakpoint_records
    by_cases hs : num < 0 ∨ 256 ≤ num
    · rw [if_pos hs]
    · rw [if_neg hs]
      rcases hins : insert_breakpoint bps num name with ⟨rc, bps2⟩
      by_cases hr : rc = 0
      · show (if rc = 0 then ((0 : Int), bps) else load_breakpoint_records rest bps2).1 = 0
        rw [if_pos hr]
      · show (if rc = 0 then ((0 : Int), bps) else load_breakpoint_records rest bps2).1 = 0
        rw [if_neg hr]
        have hsucc := insert_breakpoint_success bps num name (by rw [hins]; exact hr)
        have hbps2 : bps2 = bps ++ [Breakpoint.make num name] := by
          have := hsucc.1
          rw [hins] at this
          exact this
        obtain ⟨j2, rfl⟩ : ∃ j2, j = j2 + 1 := ⟨j - 1, by omega⟩
        cases i with
        | zero =>
          apply load_breakpoint_records_mem_dup rest bps2
          refine ⟨Breakpoint.make num name, ?_, j2, ?_, ?_⟩
          · rw [hbps2]
            exact List.mem_append_right _ (by simp)
          · simpa using hj
          · simp only [Breakpoint.make]
            simpa using hd
        | succ i2 =>
          apply ih bps2 i2 j2 (by omega) (by simpa using hj)
          simpa using hd

/-- Claim C9 (amended): when the breakpoint records of a state file
contain two records with the same masked address (positions i < j),
load_state fails (returns 0); but the registry — cleared at the start
of the load and filled one record at a time — is left holding the
breakpoints inserted before the failure, not emptied: with the
duplicate pair first, the registry keeps the breakpoint of the first
record of the pair. -/
theorem load_state_dup_spec (records : List (Int × String)) (i j : Nat)
    (hij : i < j) (hj : j < records.length)
    (hdup : (records.getD i (0, "")).1 % 256 = (records.getD j (0, "")).1 % 256) :
    (load_state_records records).1 = 0
    ∧ (∀ (n1 n2 : Int) (s1 s2 : String) (rest : List (Int × String)),
        0 ≤ n1 → n1 < 256 → 0 ≤ n2 → n2 < 256 → n1 % 256 = n2 % 256 →
        load_state_records ((n1, s1) :: (n2, s2) :: rest) = (0, [Breakpoint.make n1 s1])) := by
  constructor
  · exact load_breakpoint_records_dup records [] i j hij hj hdup
  · intro n1 n2 s1 s2 rest h10 h11 h20 h21 hpair
    have hins1 : insert_breakpoint [] n1 s1 = (1, [Breakpoint.make n1 s1]) := rfl
    have hfind : find_breakpoint [Breakpoint.make n1 s1] n2
        = some (Breakpoint.make n1 s1) := by
      rw [find_breakpoint, List.find?_cons_of_pos _ (by
        simp only [Breakpoint.make, Breakpoint.has_addr, decide_eq_true_eq]
        exact hpair)]
    have hins2 : insert_breakpoint [Breakpoint.make n1 s1] n2 s2
        = (0, [Breakpoint.make n1 s1]) := by
      unfold insert_breakpoint
      rw [hfind]
    unfold load_state_records load_breakpoint_records
    rw [if_neg (show ¬(n1 < 0 ∨ 256 ≤ n1) by omega), hins1]
    show (if (1 : Int) = 0 then ((0 : Int), ([] : List Breakpoint))
      else load_breakpoint_records ((n2, s2) :: rest) [Breakpoint.make n1 s1])
      = (0, [Breakpoint.make n1 s1])
    rw [if_neg (by norm_num)]
    unfold load_breakpoint_records
    rw [if_neg (show ¬(n2 < 0 ∨ 256 ≤ n2) by omega), hins2]
    show (if (0 : Int) = 0 then ((0 : Int), [Breakpoint.make n1 s1])
      else load_breakpoint_records rest [Breakpoint.make n1 s1])
      = (0, [Breakpoint.make n1 s1])
    rw [if_pos rfl]

/-- Counterexample to C9 as stated: loading records with the duplicated
address 4 fails (returns 0) but leaves the registry holding the first
breakpoint — one entry, not empty. -/
theorem load_state_dup_counterexample :
    load_state_records [(4, "a"), (4, "b")] = (0, [Breakpoint.make 4 "a"])
    ∧ [Breakpoint.make 4 "a"] ≠ ([] : List Breakpoint) :=
  ⟨by decide, by decide⟩

/-- Witness for the amended C9, on concrete record lists whose two
records carry the same (masked) address. -/
theorem load_state_dup_spec_witness :
    (load_state_records [(4, "a"), (4, "b")]).1 = 0
    ∧ load_state_records [(7, "p"), (7, "q")] = (0, [Breakpoint.make 7 "p"]) :=
  ⟨(load_state_dup_spec [(4, "a"), (4, "b")] 0 1 (by decide) (by decide) (by decide)).1,
   (load_state_dup_spec [(4, "a"), (4, "b")] 0 1 (by decide) (by decide) (by decide)).2
     7 7 "p" "q" [] (by decide) (by decide) (by decide) (by decide) (by decide)⟩

end Emu
